import Mathlib

/-!
Shallow embedding of the distributed random-number permuter
(`sanders_perm.hpp`, template `sanders_permutation<perm_t>` instantiated at
`perm_t = unsigned long` by `main.cpp`).

Machine integers are modelled as `Nat` with explicit reductions `% W32`
(`unsigned int`) and `% W64` (`unsigned long`) exactly where the C++
arithmetic is performed at that width.  The block size `m` is computed in the
source as `std::ceil((double)n/(double)N)`; for the representable range
(`n < 2^53`, `m < 2^32`) that double computation is exact, and it is embedded
here as exact ceiling division.  The Mersenne-twister draws are injected as
explicit draw functions, mirroring the spec's treatment of the RNG as an
injected entropy source.
-/

namespace SandersPerm

/-- Width of `unsigned int` (32 bits). -/
def W32 : Nat := 4294967296

/-- Width of `unsigned long` = `perm_t` (64 bits). -/
def W64 : Nat := 18446744073709551616

/-- `unsigned int m = std::ceil((double)n/(double)N)` from `permute`:
exact ceiling division `⌈n/P⌉`. -/
def blockSize (n P : Nat) : Nat := (n + P - 1) / P

/-- `perm_t pos = rank * (perm_t)m` from `permute`: 64-bit product. -/
def blockPos (n P r : Nat) : Nat := (r * blockSize n P) % W64

/-- The `count` computed by `permute`:
`count = m; if ((rank+1)*m) > n) count = n - pos; if (pos >= n) count = 0`.
The product `(rank+1)*m` is evaluated in `unsigned int`, hence `% W32`;
`n - pos` is evaluated in `unsigned long` and then stored into the
`unsigned int` variable `count`. -/
def blockCount (n P r : Nat) : Nat :=
  let m := blockSize n P
  let pos := blockPos n P r
  let c := if n < ((r + 1) * m) % W32 then ((n + W64 - pos) % W64) % W32 else m
  if n ≤ pos then 0 else c

/-- `allocsz` from `permute`: `allocsz = m`, except
`if (rank == N-1 && count > 0) allocsz = count`.  `p_out.resize(allocsz)`. -/
def allocSize (n P r : Nat) : Nat :=
  if r = P - 1 ∧ 0 < blockCount n P r then blockCount n P r else blockSize n P

/-- Length of each Phase-1 staging buffer: `new perm_t[count+1]`. -/
def phase1BufLen (count : Nat) : Nat := count + 1

/-- Upper bound of the Phase-1 fill loop `for (unsigned k=0; k <= (count-1); ++k)`:
the value of `count - 1` in `unsigned int` arithmetic.  For `count = 0` it
wraps to `2^32 - 1`, and since no 32-bit `k` ever exceeds it the loop never
terminates, writing `sendbuf[k]` for every such `k`. -/
def phase1FillLoopBound (count : Nat) : Nat := (count + W32 - 1) % W32

/-- The `(dest, value)` pairs built by the Phase-1 fill loop for `count ≥ 1`:
`sendbuf[k] = pos + k`, `destprocs[k] = dist(gen)` (injected as `τ k`). -/
def phase1Pairs (pos count : Nat) (τ : Nat → Nat) : List (Nat × Nat) :=
  (List.range count).map (fun k => (τ k, pos + k))

/-- One insertion step of sorting the pairs by destination, embedding the
effect of `std::sort(indices, indices+count+1, sort_indices(destprocs))`
followed by the copy into `sortedsendbuf` (ties keep an arbitrary order,
as the comparator `parr[i] < parr[j]` only constrains distinct keys). -/
def insertByDest (p : Nat × Nat) : List (Nat × Nat) → List (Nat × Nat)
  | [] => [p]
  | q :: qs => if p.1 < q.1 then p :: q :: qs else q :: insertByDest p qs

/-- Sort the `(dest, value)` pairs by destination (the Phase-1 packing sort). -/
def sortByDest (l : List (Nat × Nat)) : List (Nat × Nat) := l.foldr insertByDest []

/-- The inner `while (rp == destprocs[indices[k]]) { ++sendcnts[rp]; ++k; }`:
consume the leading run of destinations equal to `rp`, returning the number
consumed and the remaining suffix. -/
def scanStep (rp : Nat) : List Nat → Nat × List Nat
  | [] => (0, [])
  | d :: ds =>
    if d = rp then ((scanStep rp ds).1 + 1, (scanStep rp ds).2) else (0, d :: ds)

/-- The outer `for (rp = 0; rp <= N-1; ++rp)` send-count loop of Phase 1,
run for `rem` destination values starting at `rp`, over the sorted
destination sequence.  Returns the `sendcnts` entries and the unconsumed
suffix (whose length reflects how far the scanning index `k` advanced). -/
def scanLoop : Nat → Nat → List Nat → List Nat × List Nat
  | 0, _, ds => ([], ds)
  | rem + 1, rp, ds =>
    ((scanStep rp ds).1 :: (scanLoop rem (rp + 1) (scanStep rp ds).2).1,
     (scanLoop rem (rp + 1) (scanStep rp ds).2).2)

/-- Round trip of a `perm_t` (= `unsigned long`) value through the
`int t` temporary of the Phase-2 swap: truncation to 32 bits followed by
sign extension back to 64 bits (two's complement). -/
def toIntTrunc (v : Nat) : Nat :=
  let w := v % W32
  if w < 2147483648 then w else w + (W64 - W32)

/-- One Phase-2 swap:
`int t = temp[k]; temp[k] = temp[l]; temp[l] = t;`. -/
def fySwap (buf : List Nat) (k l : Nat) : List Nat :=
  let t := toIntTrunc (buf.getD k 0)
  (buf.set k (buf.getD l 0)).set l t

/-- The Phase-2 loop `for (k = total-1; k >= 1; --k)` with draw
`l = uniform_int(0, k)` injected as `σ k`. -/
def fyLoop (σ : Nat → Nat) : Nat → List Nat → List Nat
  | 0, buf => buf
  | k + 1, buf => fyLoop σ k (fySwap buf (k + 1) (σ (k + 1)))

/-- `run_phase2`: guarded by `if (total > 1)`; otherwise the buffer is
left untouched. -/
def phase2Run (σ : Nat → Nat) (buf : List Nat) : List Nat :=
  if 1 < buf.length then fyLoop σ (buf.length - 1) buf else buf

/-- Exclusive prefix sum of the local sizes: `Σ_{s<r} total_s`
(the spec's definition of `first_r`). -/
def sumBelow (sz : List Nat) (r : Nat) : Nat := (sz.take r).sum

/-- The inclusive `MPI_Scan` result on rank `r`: `Σ_{s≤r} total_s`. -/
def inclusiveScanAt (sz : List Nat) (r : Nat) : Nat := (sz.take (r + 1)).sum

/-- `first` as computed by `run_phase3`: the inclusive scan followed by
`first = first - size`. -/
def phase3First (sz : List Nat) (r : Nat) : Nat :=
  inclusiveScanAt sz r - sz.getD r 0

/-- `perm_t last = first + size - 1` evaluated in `unsigned long`
(wraps to `2^64 - 1` when `first = 0` and `size = 0`). -/
def phase3Last (first size : Nat) : Nat := (first + size + (W64 - 1)) % W64

/-- The Phase-3 sender do-while loop, emitting one `(rp, firstp, countp)`
slice per iteration:
`lastp = min((rp+1)*m - 1, last); countp = lastp - firstp + 1;`
then advance and repeat `while (firstp < last)`.  `fuel` bounds the
iteration count (the loop advances `rp` every iteration). -/
def phase3Slices : Nat → Nat → Nat → Nat → Nat → List (Nat × Nat × Nat)
  | 0, _, _, _, _ => []
  | fuel + 1, m, last, firstp, rp =>
    (rp, firstp, min ((rp + 1) * m - 1) last + 1 - firstp) ::
      (if firstp + (min ((rp + 1) * m - 1) last + 1 - firstp) < last then
        phase3Slices fuel m last (firstp + (min ((rp + 1) * m - 1) last + 1 - firstp)) (rp + 1)
      else [])

/-- Sufficient fuel for `phase3Slices`: the loop stops once `rp` passes
`last / m`. -/
def phase3Fuel (m last : Nat) : Nat := last / m + 2

/-- Payload of a slice: `&temp[firstp - first]`, `countp` elements. -/
def sliceData (temp : List Nat) (first firstp countp : Nat) : List Nat :=
  (temp.drop (firstp - first)).take countp

/-- Delivery of a slice at the destination: the receiver (or the local copy
branch) stores the payload at `perm[firstp - pos + i]`. -/
def writeAt (out : List Nat) (start : Nat) (payload : List Nat) : List Nat :=
  (List.range payload.length).foldl (fun o i => o.set (start + i) (payload.getD i 0)) out

/-- Contents of rank `r`'s receive buffer after the Phase-1 `MPI_Alltoallv`:
for each source rank `s` (in rank order, matching `rdispls`), the values of
`s`'s sorted send buffer whose destination is `r`. -/
def rankRecv (n P : Nat) (τ : Nat → Nat → Nat) (r : Nat) : List Nat :=
  ((List.range P).map (fun s =>
    ((sortByDest (phase1Pairs (blockPos n P s) (blockCount n P s) (τ s))).filter
        (fun p => p.1 == r)).map Prod.snd)).foldr (· ++ ·) []

/-- The per-rank sizes `total_r` after Phase 1. -/
def rankSizes (n P : Nat) (τ : Nat → Nat → Nat) : List Nat :=
  (List.range P).map (fun r => (rankRecv n P τ r).length)

/-- The slice schedule issued by rank `s` in Phase 3 (local copies and
`MPI_Isend` pairs alike), starting from `rp = floor(first / m)`. -/
def rankSlices (n P : Nat) (τ : Nat → Nat → Nat) (s : Nat) : List (Nat × Nat × Nat) :=
  let m := blockSize n P
  let sz := rankSizes n P τ
  let first := phase3First sz s
  let last := phase3Last first (sz.getD s 0)
  phase3Slices (phase3Fuel m last) m last first (first / m)

/-- End-to-end outputs of `permute` on every rank, with the Phase-1 routing
draws `τ` and the Phase-2 shuffle draws `σ` injected per rank.  Each rank's
output starts as the value-initialised `p_out.resize(allocsz)` vector and
receives every slice addressed to it (delivered slices land at
`perm[firstp - pos]`, exactly as in the local-copy branch and the
tag-1/tag-2 receive loop). -/
def permuteOutputs (n P : Nat) (τ σ : Nat → Nat → Nat) : List (List Nat) :=
  let sz := rankSizes n P τ
  (List.range P).map (fun r =>
    (List.range P).foldl (fun out s =>
      ((rankSlices n P τ s).filter (fun t => t.1 == r)).foldl (fun o t =>
        writeAt o (t.2.1 - blockPos n P r)
          (sliceData (phase2Run (σ s) (rankRecv n P τ s)) (phase3First sz s) t.2.1 t.2.2)) out)
      (List.replicate (allocSize n P r) 0))

/-- Routing draws for the n=3, P=2 scenario: rank 0 keeps index 0 and sends
index 1 to rank 1; rank 1 keeps index 2. -/
def tau31 : Nat → Nat → Nat := fun s k => if s = 0 then (if k = 0 then 0 else 1) else 1

/-- Shuffle draws for the n=3, P=2 scenario: always draw 0. -/
def sigma31 : Nat → Nat → Nat := fun _ _ => 0

/-- A fixed all-zero draw function. -/
def zeroDraw : Nat → Nat → Nat := fun _ _ => 0

/-- C1: with n = 3, P = 2 and routing that leaves rank 1 holding the two
elements at global positions 1 and 2, rank 1's sender loop emits only the
slice covering position 1 (the do-while exits on `firstp < last` with
`firstp = last = 2`), so the element at position 2 is neither copied locally
nor sent, rank 1's single output slot is never filled, and the concatenated
outputs [0,2] ++ [0] do not contain the value 1. -/
theorem phase3_drops_final_slice :
    rankSizes 3 2 tau31 = [1, 2] ∧
    rankSlices 3 2 tau31 1 = [(0, 1, 1)] ∧
    permuteOutputs 3 2 tau31 sigma31 = [[0, 2], [0]] ∧
    ((permuteOutputs 3 2 tau31 sigma31).foldr (· ++ ·) []).count 1 = 0 := by
  decide

/-- C2: with n = 1, P = 2, rank 1 has count = 0 but `permute` resizes its
output to `allocsz = m = 1`, not to count; moreover Phase 1's fill loop bound
`count - 1` wraps to 2^32 - 1, exceeding the `count + 1 = 1` element
allocation, so the claimed empty sequence is not returned. -/
theorem permute_output_length_bug :
    blockCount 1 2 1 = 0 ∧ allocSize 1 2 1 = 1 ∧
    (List.replicate (allocSize 1 2 1) 0).length ≠ blockCount 1 2 1 ∧
    phase1FillLoopBound 0 = 4294967295 := by
  decide

/-- C3: for a rank with count = 0 (e.g. n = 3, P = 4, rank 3), the Phase-1
fill loop bound `count - 1` underflows in `unsigned int` to 2^32 - 1, which
every 32-bit loop index satisfies, so the loop writes `sendbuf[k]` far beyond
the `count + 1 = 1` element buffer instead of contributing zero-length data. -/
theorem phase1_zero_count_oob :
    blockCount 3 4 3 = 0 ∧ phase1FillLoopBound 0 = 4294967295 ∧
    phase1BufLen 0 < phase1FillLoopBound 0 := by
  decide

/-- C4 counterexample: with n = 5, P = 4 the block size is m = 2 and rank
r = 2 < P - 1 gets count = 1, which is neither m nor 0, refuting the claim's
consequent "for r < P-1, count_r is either m or 0". -/
theorem layout_consequent_false :
    2 < 4 - 1 ∧ blockSize 5 4 = 2 ∧ blockCount 5 4 2 = 1 ∧
    blockCount 5 4 2 ≠ blockSize 5 4 ∧ blockCount 5 4 2 ≠ 0 := by
  decide

/-- C6: the Phase-2 swap routes `temp[k]` through an `int` temporary, so for
the buffer [0, 2^31] (with draw l = 0 at k = 1) the value 2^31 is truncated
and sign-extended to 2^64 - 2^31 instead of being exchanged: the result is
not the Fisher-Yates swap of positions 1 and 0. -/
theorem phase2_truncating_swap :
    phase2Run (fun _ => 0) [0, 2147483648] = [18446744071562067968, 0] ∧
    ([18446744071562067968, 0] : List Nat) ≠ [2147483648, 0] := by
  decide

/-- C8: `permute` performs no input validation.  For n = 5368709121, P = 2
the comparison `(rank+1)*m > n` is evaluated in `unsigned int` and wraps, so
rank 1 keeps count = m = 2684354561 with pos + count = n + 1 > n, and this
invalid layout flows straight into the Phase-1 collectives without any error
being surfaced (the correct count would be n - pos = 2684354560). -/
theorem no_input_validation :
    blockSize 5368709121 2 = 2684354561 ∧
    blockPos 5368709121 2 1 + blockCount 5368709121 2 1 = 5368709121 + 1 ∧
    blockCount 5368709121 2 1 ≠ 5368709121 - blockPos 5368709121 2 1 := by
  decide

/-- C10: Phase 2 does not preserve the multiset of buffer elements: for the
buffer [1, 2^31] (draw l = 0 at k = 1) the `int` temporary mangles 2^31 into
2^64 - 2^31, so the value 2^31 disappears from the buffer. -/
theorem phase2_multiset_not_preserved :
    phase2Run (fun _ => 0) [1, 2147483648] = [18446744071562067968, 1] ∧
    (phase2Run (fun _ => 0) [1, 2147483648]).count 2147483648 ≠
      ([1, 2147483648] : List Nat).count 2147483648 := by
  decide

/-- Membership in an insertion step. -/
lemma mem_insertByDest {p q : Nat × Nat} :
    ∀ {l : List (Nat × Nat)}, q ∈ insertByDest p l ↔ q = p ∨ q ∈ l := by
  intro l
  induction l with
  | nil => simp [insertByDest]
  | cons a l ih =>
    by_cases h : p.1 < a.1
    · simp only [insertByDest, if_pos h, List.mem_cons]
    · simp only [insertByDest, if_neg h, List.mem_cons, ih]
      tauto

/-- Insertion increases the length by one. -/
lemma length_insertByDest (p : Nat × Nat) : ∀ (l : List (Nat × Nat)),
    (insertByDest p l).length = l.length + 1 := by
  intro l
  induction l with
  | nil => rfl
  | cons a l ih =>
    by_cases h : p.1 < a.1
    · simp [insertByDest, h]
    · simp [insertByDest, h, ih]

/-- Insertion preserves sortedness by destination. -/
lemma pairwise_insertByDest {p : Nat × Nat} :
    ∀ {l : List (Nat × Nat)}, l.Pairwise (fun a b => a.1 ≤ b.1) →
      (insertByDest p l).Pairwise (fun a b => a.1 ≤ b.1) := by
  intro l
  induction l with
  | nil => intro _; exact List.pairwise_singleton _ _
  | cons a l ih =>
    intro h
    rw [List.pairwise_cons] at h
    by_cases hcmp : p.1 < a.1
    · rw [show insertByDest p (a :: l) = p :: a :: l from by simp [insertByDest, hcmp]]
      rw [List.pairwise_cons]
      refine ⟨?_, List.pairwise_cons.mpr h⟩
      intro b hb
      rcases List.mem_cons.mp hb with rfl | hb'
      · omega
      · have := h.1 b hb'
        omega
    · rw [show insertByDest p (a :: l) = a :: insertByDest p l from by
        simp [insertByDest, hcmp]]
      rw [List.pairwise_cons]
      refine ⟨?_, ih h.2⟩
      intro b hb
      rcases mem_insertByDest.mp hb with rfl | hb'
      · omega
      · exact h.1 b hb'

/-- The Phase-1 packing sort produces a destination-sorted sequence. -/
lemma pairwise_sortByDest : ∀ (l : List (Nat × Nat)),
    (sortByDest l).Pairwise (fun a b => a.1 ≤ b.1) := by
  intro l
  induction l with
  | nil => exact List.Pairwise.nil
  | cons a l ih => exact pairwise_insertByDest ih

/-- The sort permutes the pairs (membership is preserved). -/
lemma mem_sortByDest {q : Nat × Nat} : ∀ {l : List (Nat × Nat)},
    q ∈ sortByDest l ↔ q ∈ l := by
  intro l
  induction l with
  | nil => simp [sortByDest]
  | cons a l ih =>
    show q ∈ insertByDest a (sortByDest l) ↔ _
    rw [mem_insertByDest]
    simp [ih]

/-- The sort preserves the length. -/
lemma length_sortByDest : ∀ (l : List (Nat × Nat)), (sortByDest l).length = l.length := by
  intro l
  induction l with
  | nil => rfl
  | cons a l ih =>
    show (insertByDest a (sortByDest l)).length = l.length + 1
    rw [length_insertByDest, ih]

/-- Inserting a pair with a strictly smaller key leaves a strictly-maximal
trailing element in place. -/
lemma insertByDest_append_big (s p : Nat × Nat) (h : p.1 < s.1) :
    ∀ (l : List (Nat × Nat)), insertByDest p (l ++ [s]) = insertByDest p l ++ [s] := by
  intro l
  induction l with
  | nil => simp [insertByDest, h]
  | cons a l ih =>
    by_cases hc : p.1 < a.1
    · simp [insertByDest, hc]
    · simp [insertByDest, hc, ih]

/-- Sorting with a strictly-maximal sentinel appended keeps the sentinel at
the last position. -/
lemma sortByDest_append_big (s : Nat × Nat) :
    ∀ (l : List (Nat × Nat)), (∀ p ∈ l, p.1 < s.1) →
      sortByDest (l ++ [s]) = sortByDest l ++ [s] := by
  intro l
  induction l with
  | nil => intro _; rfl
  | cons a l ih =>
    intro h
    have ha : a.1 < s.1 := h a (List.mem_cons_self _ _)
    have hl : ∀ p ∈ l, p.1 < s.1 := fun p hp => h p (List.mem_cons_of_mem _ hp)
    show insertByDest a (sortByDest (l ++ [s])) = insertByDest a (sortByDest l) ++ [s]
    rw [ih hl, insertByDest_append_big s a ha]

/-- Sortedness of the pairs transfers to the destination keys. -/
lemma pairwise_fst_of : ∀ (l : List (Nat × Nat)),
    l.Pairwise (fun a b => a.1 ≤ b.1) → (l.map Prod.fst).Pairwise (· ≤ ·) := by
  intro l
  induction l with
  | nil => intro _; exact List.Pairwise.nil
  | cons a l ih =>
    intro h
    rw [List.pairwise_cons] at h
    rw [List.map_cons, List.pairwise_cons]
    refine ⟨?_, ih h.2⟩
    intro b hb
    obtain ⟨q, hq, rfl⟩ := List.mem_map.mp hb
    exact h.1 q hq

/-- Taking the first `length` entries of a list with one element appended
recovers the list. -/
lemma take_len_append (A : List Nat) (b : Nat) : (A ++ [b]).take A.length = A := by
  induction A with
  | nil => rfl
  | cons a A ih => simp [ih]

/-- One send-count scan step over a sorted run bounded below by `rp`, with a
sentinel strictly above `rp` at the end: it consumes exactly the leading run
of destinations equal to `rp`. -/
lemma scanStep_consume : ∀ (rp : Nat) (ds : List Nat) (S : Nat), rp < S →
    ds.Pairwise (· ≤ ·) → (∀ d ∈ ds, rp ≤ d) →
    ∃ u : List Nat, scanStep rp (ds ++ [S]) = (ds.length - u.length, u ++ [S]) ∧
      u.length ≤ ds.length ∧ u.Pairwise (· ≤ ·) ∧
      (∀ d ∈ u, rp + 1 ≤ d) ∧ (∀ d ∈ u, d ∈ ds) := by
  intro rp ds S hS
  induction ds with
  | nil =>
    intro _ _
    refine ⟨[], ?_, Nat.le_refl _, List.Pairwise.nil, by simp, by simp⟩
    simp only [List.nil_append, scanStep]
    rw [if_neg (by omega)]
    simp
  | cons d ds ih =>
    intro hpw hge
    rw [List.pairwise_cons] at hpw
    by_cases hdrp : d = rp
    · obtain ⟨u, hstep, hlen, hupw, huge, husub⟩ :=
        ih hpw.2 (fun e he => hge e (List.mem_cons_of_mem _ he))
      refine ⟨u, ?_, by simp only [List.length_cons]; omega, hupw, huge,
        fun e he => List.mem_cons_of_mem _ (husub e he)⟩
      have hll : ds.length - u.length + 1 = ds.length + 1 - u.length := by omega
      simp only [List.cons_append, scanStep, if_pos hdrp, List.append_eq, hstep,
        List.length_cons, hll]
    · refine ⟨d :: ds, ?_, Nat.le_refl _, List.pairwise_cons.mpr hpw, ?_, fun e he => he⟩
      · simp only [List.cons_append, scanStep, if_neg hdrp]
        simp
      · intro e he
        rcases List.mem_cons.mp he with rfl | he'
        · have := hge e (List.mem_cons_self _ _)
          omega
        · have h1 := hpw.1 e he'
          have h2 := hge d (List.mem_cons_self _ _)
          omega

/-- The send-count loop over a destination-sorted sequence with a sentinel:
the counts sum to the number of genuine elements, the scanning index stops
exactly at the sentinel (which is never consumed), and one count is produced
for each of the `rem` destination values. -/
lemma scanLoop_run : ∀ (rem rp : Nat) (ds : List Nat) (S : Nat),
    ds.Pairwise (· ≤ ·) → (∀ d ∈ ds, rp ≤ d ∧ d < rp + rem) → rp + rem ≤ S →
    (scanLoop rem rp (ds ++ [S])).1.sum = ds.length ∧
    (scanLoop rem rp (ds ++ [S])).2 = [S] ∧
    (scanLoop rem rp (ds ++ [S])).1.length = rem := by
  intro rem
  induction rem with
  | zero =>
    intro rp ds S hpw hb hS
    have hds : ds = [] := by
      cases ds with
      | nil => rfl
      | cons d ds => exact absurd (hb d (List.mem_cons_self _ _)) (by omega)
    subst hds
    simp [scanLoop]
  | succ rem ih =>
    intro rp ds S hpw hb hS
    obtain ⟨u, hstep, hlen, hupw, huge, husub⟩ :=
      scanStep_consume rp ds S (by omega) hpw (fun d hd => (hb d hd).1)
    have hub : ∀ d ∈ u, rp + 1 ≤ d ∧ d < rp + 1 + rem := by
      intro d hd
      have h2 := (hb d (husub d hd)).2
      exact ⟨huge d hd, by omega⟩
    obtain ⟨h1, h2, h3⟩ := ih (rp + 1) u S hupw hub (by omega)
    simp only [scanLoop, hstep, List.sum_cons, List.length_cons]
    refine ⟨?_, h2, ?_⟩
    · rw [h1]; omega
    · rw [h3]

/-- C7: for every count ≥ 1 and any routing draws below P, the Phase-1
sentinel pair (dest = P, value = 0) is inert: sorting the count+1 pairs puts
the sentinel at the last position (so the transmitted region, the first
`count` entries of the sorted send buffer, never contains its value), the
send-count loop consumes exactly the `count` genuine entries (the counts sum
to `count`, one entry per destination, and the scanning index stops at the
sentinel without ever incrementing a count for it). -/
theorem sentinel_inert (P count pos : Nat) (τ : Nat → Nat) (_hc : 1 ≤ count)
    (hτ : ∀ k, k < count → τ k < P) :
    sortByDest (phase1Pairs pos count τ ++ [(P, 0)]) =
      sortByDest (phase1Pairs pos count τ) ++ [(P, 0)] ∧
    (scanLoop P 0 ((sortByDest (phase1Pairs pos count τ)).map Prod.fst ++ [P])).1.sum
      = count ∧
    (scanLoop P 0 ((sortByDest (phase1Pairs pos count τ)).map Prod.fst ++ [P])).2
      = [P] ∧
    (scanLoop P 0 ((sortByDest (phase1Pairs pos count τ)).map Prod.fst ++ [P])).1.length
      = P ∧
    ((sortByDest (phase1Pairs pos count τ ++ [(P, 0)])).map Prod.snd).take count
      = (sortByDest (phase1Pairs pos count τ)).map Prod.snd := by
  have hmem : ∀ p ∈ phase1Pairs pos count τ, p.1 < P := by
    intro p hp
    simp only [phase1Pairs, List.mem_map, List.mem_range] at hp
    obtain ⟨k, hk, rfl⟩ := hp
    exact hτ k hk
  have hsplit := sortByDest_append_big (P, 0) (phase1Pairs pos count τ) hmem
  have hkpw := pairwise_fst_of _ (pairwise_sortByDest (phase1Pairs pos count τ))
  have hkb : ∀ d ∈ (sortByDest (phase1Pairs pos count τ)).map Prod.fst,
      0 ≤ d ∧ d < 0 + P := by
    intro d hd
    obtain ⟨q, hq, rfl⟩ := List.mem_map.mp hd
    have := hmem q (mem_sortByDest.mp hq)
    exact ⟨Nat.zero_le _, by omega⟩
  have hlen : ((sortByDest (phase1Pairs pos count τ)).map Prod.fst).length = count := by
    rw [List.length_map, length_sortByDest]
    simp [phase1Pairs]
  obtain ⟨h1, h2, h3⟩ :=
    scanLoop_run P 0 ((sortByDest (phase1Pairs pos count τ)).map Prod.fst) P
      hkpw hkb (by omega)
  refine ⟨hsplit, by rw [h1]; exact hlen, h2, h3, ?_⟩
  have h4 := take_len_append ((sortByDest (phase1Pairs pos count τ)).map Prod.snd) 0
  have h5 : ((sortByDest (phase1Pairs pos count τ)).map Prod.snd).length = count := by
    rw [List.length_map, length_sortByDest]
    simp [phase1Pairs]
  rw [h5] at h4
  rw [hsplit, List.map_append]
  exact h4

/-- Witness for C7: P = 2, count = 1, pos = 5, all draws equal to 1. -/
theorem sentinel_inert_witness :
    (1 ≤ 1) ∧
    (scanLoop 2 0 ((sortByDest (phase1Pairs 5 1 (fun _ => 1))).map Prod.fst ++ [2])).1.sum
      = 1 ∧
    (scanLoop 2 0 ((sortByDest (phase1Pairs 5 1 (fun _ => 1))).map Prod.fst ++ [2])).2
      = [2] := by
  have h := sentinel_inert 2 1 5 (fun _ => 1) (Nat.le_refl 1) (fun k hk => Nat.one_lt_two)
  exact ⟨Nat.le_refl 1, h.2.1, h.2.2.1⟩

/-- The computed block size is the ceiling `⌈n/P⌉`: it is the least `m` with
`n ≤ P * m` (stated as the two-sided characterisation). -/
lemma blockSize_ceil (n P : Nat) (hP : 1 ≤ P) :
    n ≤ P * blockSize n P ∧ P * blockSize n P < n + P := by
  have h := Nat.div_add_mod (n + P - 1) P
  have hm : (n + P - 1) % P < P := Nat.mod_lt _ (by omega)
  unfold blockSize
  generalize P * ((n + P - 1) / P) = t at h ⊢
  omega

/-- In the overflow-free regime `P * m < 2^32`, the computed count is exactly
`min(m, n - r*m)` (truncated subtraction). -/
lemma blockCount_min (n P s : Nat) (hP : 1 ≤ P) (hs : s < P)
    (hov : P * blockSize n P < W32) :
    blockCount n P s = min (blockSize n P) (n - s * blockSize n P) := by
  have hceil := blockSize_ceil n P hP
  have hW : W32 < W64 := by norm_num [W32, W64]
  have h1 : (s + 1) * blockSize n P ≤ P * blockSize n P :=
    Nat.mul_le_mul_right _ (by omega)
  have hsucc : (s + 1) * blockSize n P = s * blockSize n P + blockSize n P :=
    Nat.succ_mul s _
  have hpos : blockPos n P s = s * blockSize n P := Nat.mod_eq_of_lt (by omega)
  simp only [blockCount, hpos]
  rw [Nat.mod_eq_of_lt (show (s + 1) * blockSize n P < W32 by omega)]
  by_cases hns : n ≤ s * blockSize n P
  · rw [if_pos hns, Nat.sub_eq_zero_of_le hns, Nat.min_zero]
  · rw [if_neg hns]
    by_cases hc : n < (s + 1) * blockSize n P
    · rw [if_pos hc]
      have he : n + W64 - s * blockSize n P = W64 + (n - s * blockSize n P) := by omega
      rw [he, Nat.add_mod_left,
        Nat.mod_eq_of_lt (show n - s * blockSize n P < W64 by omega),
        Nat.mod_eq_of_lt (show n - s * blockSize n P < W32 by omega),
        Nat.min_eq_right (by omega)]
    · rw [if_neg hc, Nat.min_eq_left (by omega)]

/-- Summing `min(m, n - s*m)` over the ranks recovers `n` whenever
`n ≤ P * m`. -/
lemma sum_min_block : ∀ (P n m : Nat), n ≤ P * m →
    (Finset.range P).sum (fun s => min m (n - s * m)) = n := by
  intro P
  induction P with
  | zero => intro n m h; simp at h ⊢; omega
  | succ P ih =>
    intro n m h
    rw [Finset.sum_range_succ']
    have hshift : ∀ s, min m (n - (s + 1) * m) = min m ((n - m) - s * m) := by
      intro s
      rw [Nat.succ_mul]
      congr 1
      omega
    rw [Finset.sum_congr rfl (fun s _ => hshift s),
      ih (n - m) m (by rw [Nat.succ_mul] at h; omega)]
    simp only [Nat.zero_mul, Nat.sub_zero]
    rcases Nat.le_total n m with h1 | h1
    · rw [Nat.min_eq_right h1]; omega
    · rw [Nat.min_eq_left h1]; omega

/-- C4 amended: provided the products stay below 2^32 (no `unsigned int`
wrap, i.e. `P * m < 2^32`), the layout satisfies the contract:
m = ⌈n/P⌉, pos_r = r·m, count_r = n - pos_r when (r+1)·m > n, count_r = 0
when pos_r ≥ n; consequently count_r = min(m, n ∸ r·m) for every rank
(a rank below P-1 may hold a partial block), count_{P-1} ≤ m, and the counts
sum to n. -/
theorem layout_contract_amended (n P r : Nat) (hP : 1 ≤ P) (hr : r < P)
    (hov : P * blockSize n P < W32) :
    (n ≤ P * blockSize n P ∧ P * blockSize n P < n + P) ∧
    blockPos n P r = r * blockSize n P ∧
    (n < (r + 1) * blockSize n P → blockCount n P r = n - r * blockSize n P) ∧
    (n ≤ r * blockSize n P → blockCount n P r = 0) ∧
    blockCount n P r = min (blockSize n P) (n - r * blockSize n P) ∧
    blockCount n P (P - 1) ≤ blockSize n P ∧
    (Finset.range P).sum (fun s => blockCount n P s) = n := by
  have hceil := blockSize_ceil n P hP
  have hW : W32 < W64 := by norm_num [W32, W64]
  have hmin := blockCount_min n P r hP hr hov
  have h1 : (r + 1) * blockSize n P ≤ P * blockSize n P :=
    Nat.mul_le_mul_right _ (by omega)
  have hsucc : (r + 1) * blockSize n P = r * blockSize n P + blockSize n P :=
    Nat.succ_mul r _
  refine ⟨hceil, Nat.mod_eq_of_lt (by omega), ?_, ?_, hmin, ?_, ?_⟩
  · intro h
    rw [hmin, Nat.min_eq_right (by omega)]
  · intro h
    rw [hmin, Nat.sub_eq_zero_of_le h, Nat.min_zero]
  · rw [blockCount_min n P (P - 1) hP (by omega) hov]
    exact Nat.min_le_left _ _
  · rw [Finset.sum_congr rfl
      (fun s hs => blockCount_min n P s hP (Finset.mem_range.mp hs) hov)]
    exact sum_min_block P n (blockSize n P) hceil.1

/-- Witness for the amended C4: n = 5, P = 4, r = 2 (the partial block). -/
theorem layout_contract_amended_witness :
    (1 ≤ 4 ∧ 2 < 4 ∧ 4 * blockSize 5 4 < W32) ∧
    blockCount 5 4 2 = min (blockSize 5 4) (5 - 2 * blockSize 5 4) ∧
    (Finset.range 4).sum (fun s => blockCount 5 4 s) = 5 :=
  ⟨⟨by decide, by decide, by decide⟩,
    (layout_contract_amended 5 4 2 (by decide) (by decide) (by decide)).2.2.2.2.1,
    (layout_contract_amended 5 4 2 (by decide) (by decide) (by decide)).2.2.2.2.2.2⟩

/-- Peeling one entry off the (exclusive) prefix sum. -/
lemma sumBelow_succ (sz : List Nat) (r : Nat) :
    sumBelow sz (r + 1) = sumBelow sz r + sz.getD r 0 := by
  induction sz generalizing r with
  | nil => simp [sumBelow]
  | cons a l ih =>
    cases r with
    | zero => simp [sumBelow]
    | succ r =>
      have h := ih r
      simp only [sumBelow, List.take_succ_cons, List.sum_cons, List.getD_cons_succ] at h ⊢
      omega

/-- Prefix sums over a cons cell. -/
lemma sumBelow_cons_succ (a : Nat) (l : List Nat) (s : Nat) :
    sumBelow (a :: l) (s + 1) = a + sumBelow l s := by
  simp [sumBelow, List.take_succ_cons]

/-- Monotonicity of the exclusive prefix sum. -/
lemma sumBelow_mono (sz : List Nat) {r s : Nat} (h : r ≤ s) :
    sumBelow sz r ≤ sumBelow sz s := by
  induction h with
  | refl => exact Nat.le_refl _
  | step _ ih => exact le_trans ih (by rw [sumBelow_succ]; exact Nat.le_add_right _ _)

/-- Every global position below the total size falls into some rank's
interval `[Σ_{s<r} total_s, Σ_{s<r} total_s + total_r)`. -/
lemma block_mem_exists : ∀ (sz : List Nat) (i : Nat), i < sz.sum →
    ∃ s, s < sz.length ∧ sumBelow sz s ≤ i ∧ i < sumBelow sz s + sz.getD s 0 := by
  intro sz
  induction sz with
  | nil => intro i hi; simp at hi
  | cons a l ih =>
    intro i hi
    rw [List.sum_cons] at hi
    by_cases hia : i < a
    · refine ⟨0, by simp, by simp [sumBelow], ?_⟩
      simpa [sumBelow] using hia
    · obtain ⟨s, h1, h2, h3⟩ := ih (i - a) (by omega)
      refine ⟨s + 1, by simpa using h1, ?_, ?_⟩
      · rw [sumBelow_cons_succ]; omega
      · rw [sumBelow_cons_succ, List.getD_cons_succ]; omega

/-- The rank intervals are pairwise disjoint: a position lies in at most one. -/
lemma block_mem_unique (sz : List Nat) (i : Nat) {s t : Nat}
    (hs1 : sumBelow sz s ≤ i) (hs2 : i < sumBelow sz s + sz.getD s 0)
    (ht1 : sumBelow sz t ≤ i) (ht2 : i < sumBelow sz t + sz.getD t 0) : s = t := by
  rcases Nat.lt_trichotomy s t with h | h | h
  · exfalso
    have h1 : sumBelow sz (s + 1) ≤ sumBelow sz t := sumBelow_mono sz h
    have h2 := sumBelow_succ sz s
    omega
  · exact h
  · exfalso
    have h1 : sumBelow sz (t + 1) ≤ sumBelow sz s := sumBelow_mono sz h
    have h2 := sumBelow_succ sz t
    omega

/-- C5: the code's Phase-3 base position (inclusive `MPI_Scan` of the local
sizes followed by subtracting the rank's own size) equals the exclusive
prefix sum `Σ_{s<r} total_s`, and the induced intervals
`[first_r, first_r + total_r)` partition the global positions `0 … n-1`:
each position below the total lies in exactly one rank's interval. -/
theorem phase3_first_refines_partition (sz : List Nat) (r i : Nat) (hi : i < sz.sum) :
    phase3First sz r = sumBelow sz r ∧
    ∃! s, s < sz.length ∧ sumBelow sz s ≤ i ∧ i < sumBelow sz s + sz.getD s 0 := by
  constructor
  · have h := sumBelow_succ sz r
    unfold sumBelow at h
    unfold phase3First inclusiveScanAt sumBelow
    omega
  · obtain ⟨s, h1, h2, h3⟩ := block_mem_exists sz i hi
    refine ⟨s, ⟨h1, h2, h3⟩, ?_⟩
    rintro t ⟨ht1, ht2, ht3⟩
    exact block_mem_unique sz i ht2 ht3 h2 h3

/-- Witness for C5: sizes [1, 2] (three global positions), rank 1,
position i = 2. -/
theorem phase3_first_refines_partition_witness :
    phase3First [1, 2] 1 = sumBelow [1, 2] 1 ∧
    ∃! s, s < ([1, 2] : List Nat).length ∧ sumBelow [1, 2] s ≤ 2 ∧
      2 < sumBelow [1, 2] s + ([1, 2] : List Nat).getD s 0 :=
  phase3_first_refines_partition [1, 2] 1 2 (by decide)

/-- C9: the end-to-end outputs are a deterministic function of (n, P) and the
injected draw streams: two invocations whose routing draws and shuffle draws
agree pointwise on every rank produce identical outputs on every rank. -/
theorem permute_deterministic (n P : Nat) (τ1 τ2 σ1 σ2 : Nat → Nat → Nat)
    (hτ : ∀ s k, τ1 s k = τ2 s k) (hσ : ∀ s k, σ1 s k = σ2 s k) :
    permuteOutputs n P τ1 σ1 = permuteOutputs n P τ2 σ2 := by
  have h1 : τ1 = τ2 := funext fun s => funext fun k => hτ s k
  have h2 : σ1 = σ2 := funext fun s => funext fun k => hσ s k
  rw [h1, h2]

/-- Witness for C9: instantiation at n = 2, P = 1 with the all-zero draws. -/
theorem permute_deterministic_witness :
    permuteOutputs 2 1 zeroDraw zeroDraw = permuteOutputs 2 1 zeroDraw zeroDraw :=
  permute_deterministic 2 1 zeroDraw zeroDraw zeroDraw zeroDraw
    (fun _ _ => rfl) (fun _ _ => rfl)

end SandersPerm
